import Mathlib

/-!
Verification of the sealed-archive codec of bwbackup (src/main.rs).

The repository code under verification is the pair of functions `seal` and
`restore` in src/main.rs, together with the output discipline of `backup`
and `restore`.  The cryptographic primitives they call (sodiumoxide
`pwhash::derive_key_interactive`, `secretbox::seal`, `secretbox::open`,
`pwhash::gen_salt`, `secretbox::gen_nonce`) are a third-party library and
are not part of this repository; they are modelled from the spec as an
ideal key-derivation function and an ideal authenticated-encryption
primitive (glossary: a symmetric cipher mode that simultaneously provides
confidentiality and tamper-detection via an integrity tag).  Randomness
(salt and nonce generation) is modelled by passing the drawn values as
explicit parameters.  Bytes are modelled as natural numbers; genuine byte
sequences are characterised by the predicate `IsBytes`.
-/

namespace BwBackup

/-- Number of salt bytes produced by pwhash::gen_salt (pwhash::SALTBYTES). -/
def SALTBYTES : Nat := 32

/-- Number of nonce bytes produced by secretbox::gen_nonce (secretbox::NONCEBYTES). -/
def NONCEBYTES : Nat := 24

/-- Length of the authentication tag of secretbox (secretbox::MACBYTES). -/
def MACBYTES : Nat := 16

/-- A list of naturals models an actual byte sequence when every entry fits in 8 bits. -/
def IsBytes (l : List Nat) : Prop := ∀ b ∈ l, b < 256

instance (l : List Nat) : Decidable (IsBytes l) :=
  inferInstanceAs (Decidable (∀ b ∈ l, b < 256))

/-- Positional (base 257) code of a byte list, injective on byte sequences. -/
def encB : List Nat → Nat
  | [] => 0
  | b :: bs => (b + 1) + 257 * encB bs

/-- Modelled from the spec: pwhash::derive_key_interactive is a
"deterministic function of (password, salt) via a memory-hard, CPU-hard
password-hashing function"; it "may fail (signals KeyDerivationFailed) if
the underlying primitive rejects parameters (should not occur with fixed
constant parameters, but must be checked, not assumed)".  The ideal model
is a deterministic total function of the pair (password, salt), injective
in that pair, wrapped in Option to keep the checked failure path of the
source. -/
def deriveKeyInteractive (password salt : List Nat) : Option Nat :=
  some (Nat.pair (encB password) (encB salt))

/-- Keystream byte of the stream cipher underlying secretbox, at position i. -/
def ks (key i : Nat) : Nat := (key + i) % 256

/-- Stream encryption: XOR each byte with the keystream, starting at position i. -/
def xorStream (key : Nat) : Nat → List Nat → List Nat
  | _, [] => []
  | i, b :: bs => (b ^^^ ks key i) :: xorStream key (i + 1) bs

/-- Authentication tag of the ideal authenticated-encryption primitive:
16 cells, the first of which determines (key, nonce, plaintext) exactly.
An ideal tag detects every modification; its perfect binding is what the
spec assumes when it states that decryption fails on any wrong password or
tampering. -/
def tagBlock (key : Nat) (nonce m : List Nat) : List Nat :=
  Nat.pair (Nat.pair key (encB nonce)) (encB m) :: List.replicate 15 0

/-- Modelled from the spec: secretbox::seal, the "authenticated-encryption
output of the plaintext payload under (Derived Key, Nonce); includes an
authentication tag appended by the encryption primitive; length =
plaintext length + tag length (16 bytes)". -/
def secretboxSeal (m nonce : List Nat) (key : Nat) : List Nat :=
  tagBlock key nonce m ++ xorStream key 0 m

/-- Modelled from the spec: secretbox::open, the authenticated decryption
attempt of a ciphertext under (key, nonce); it fails ("wrong password,
corrupted file, or tampering") exactly when the tag does not verify. -/
def secretboxOpen (c nonce : List Nat) (key : Nat) : Option (List Nat) :=
  let tag := c.take 16
  let body := c.drop 16
  let m := xorStream key 0 body
  if tag = tagBlock key nonce m then some m else none

/-- Modelled from the spec: pwhash::Salt::from_slice accepts exactly slices
of SALTBYTES = 32 bytes. -/
def saltFromSlice (l : List Nat) : Option (List Nat) :=
  if l.length = 32 then some l else none

/-- Modelled from the spec: secretbox::Nonce::from_slice accepts exactly
slices of NONCEBYTES = 24 bytes. -/
def nonceFromSlice (l : List Nat) : Option (List Nat) :=
  if l.length = 24 then some l else none

/-- Pure byte-level result of seal for given random draws: the
concatenation salt ++ nonce ++ secretbox ciphertext (src/main.rs seal,
lines 143 to 147). -/
def sealBytes (password salt nonce data : List Nat) : List Nat :=
  salt ++ nonce ++ secretboxSeal data nonce (Nat.pair (encB password) (encB salt))

/-- The function seal of src/main.rs (lines 133 to 148), with the two
random draws gen_salt and gen_nonce passed as explicit parameters: derive
a key from (password, salt), encrypt, and emit salt ++ nonce ++
ciphertext.  The Option mirrors the Result return of the source, whose
only failure path is key derivation. -/
def sealArchive (password salt nonce data : List Nat) : Option (List Nat) :=
  match deriveKeyInteractive password salt with
  | none => none
  | some key => some (salt ++ nonce ++ secretboxSeal data nonce key)

/-- Outcomes of restore in src/main.rs (lines 150 to 166), after the file
has been read into buf.  The two panic outcomes model the expect calls on
from_slice; the error outcomes model the anyhow errors "Insufficient bytes
in file", "Could not derive key" and "Unable to decrypt". -/
inductive RestoreResult where
  | ok (plaintext : List Nat)
  | malformedArchive
  | invalidSaltPanic
  | invalidNoncePanic
  | keyDerivationFailed
  | decryptionFailed
deriving DecidableEq

/-- Whether a restore outcome is a success. -/
def RestoreResult.isOk : RestoreResult → Bool
  | .ok _ => true
  | _ => false

/-- The decryption core of restore in src/main.rs (lines 156 to 166), with
the file contents passed as buf: length guard, destructuring of salt,
nonce and ciphertext at offsets 32 and 56, key derivation, and
authenticated decryption. -/
def restore (password buf : List Nat) : RestoreResult :=
  if buf.length > 56 then
    match saltFromSlice (buf.take 32) with
    | none => .invalidSaltPanic
    | some salt =>
      match nonceFromSlice ((buf.drop 32).take 24) with
      | none => .invalidNoncePanic
      | some nonce =>
        match deriveKeyInteractive password salt with
        | none => .keyDerivationFailed
        | some key =>
          match secretboxOpen (buf.drop 56) nonce key with
          | none => .decryptionFailed
          | some m => .ok m
  else .malformedArchive

/-- Instrumented copy of restore whose second component records whether
key derivation was attempted. -/
def restoreInstr (password buf : List Nat) : RestoreResult × Bool :=
  if buf.length > 56 then
    match saltFromSlice (buf.take 32) with
    | none => (.invalidSaltPanic, false)
    | some salt =>
      match nonceFromSlice ((buf.drop 32).take 24) with
      | none => (.invalidNoncePanic, false)
      | some nonce =>
        match deriveKeyInteractive password salt with
        | none => (.keyDerivationFailed, true)
        | some key =>
          match secretboxOpen (buf.drop 56) nonce key with
          | none => (.decryptionFailed, true)
          | some m => (.ok m, true)
  else (.malformedArchive, false)

/-- The output discipline of restore (src/main.rs lines 168 to 173): the
bytes written to stdout are the decrypted plaintext on success and nothing
otherwise, because write_all runs only after every fallible step has
succeeded. -/
def restoreRun (password buf : List Nat) : RestoreResult × List Nat :=
  match restore password buf with
  | .ok m => (.ok m, m)
  | e => (e, [])

/-- The output discipline of backup (src/main.rs lines 122 to 127),
parametrized by the outcome of the seal call: the bytes written to the
backup file are the sealed archive when seal succeeds and nothing
otherwise, because File::create and write_all run only after seal has
returned Ok.  The backup function proper is
backupRun (sealArchive password salt nonce data). -/
def backupRun (sealResult : Option (List Nat)) : Option (List Nat) × List Nat :=
  match sealResult with
  | none => (none, [])
  | some sealed => (some sealed, sealed)

/-! Helper lemmas about the byte code, the stream cipher and list slicing. -/

theorem isBytes_cons {b : Nat} {bs : List Nat} (hb : b < 256) (hbs : IsBytes bs) :
    IsBytes (b :: bs) := by
  intro x hx
  rcases List.mem_cons.1 hx with h | h
  · exact h ▸ hb
  · exact hbs x h

theorem encB_inj : ∀ {l1 l2 : List Nat}, IsBytes l1 → IsBytes l2 →
    encB l1 = encB l2 → l1 = l2
  | [], [], _, _, _ => rfl
  | [], b :: bs, _, _, h => by
    simp only [encB] at h
    omega
  | b :: bs, [], _, _, h => by
    simp only [encB] at h
    omega
  | b1 :: bs1, b2 :: bs2, h1, h2, h => by
    have hb1 : b1 < 256 := h1 b1 (List.mem_cons_self _ _)
    have hb2 : b2 < 256 := h2 b2 (List.mem_cons_self _ _)
    have hbs1 : IsBytes bs1 := fun x hx => h1 x (List.mem_cons_of_mem _ hx)
    have hbs2 : IsBytes bs2 := fun x hx => h2 x (List.mem_cons_of_mem _ hx)
    simp only [encB] at h
    have hb : b1 = b2 := by omega
    have he : encB bs1 = encB bs2 := by omega
    rw [hb, encB_inj hbs1 hbs2 he]

theorem ks_lt (key i : Nat) : ks key i < 256 :=
  Nat.mod_lt _ (by omega)

theorem length_xorStream (key : Nat) : ∀ (i : Nat) (l : List Nat),
    (xorStream key i l).length = l.length
  | _, [] => rfl
  | i, _ :: bs => by simp [xorStream, length_xorStream key (i + 1) bs]

theorem xorStream_xorStream (key : Nat) : ∀ (i : Nat) (l : List Nat),
    xorStream key i (xorStream key i l) = l
  | _, [] => rfl
  | i, b :: bs => by
    simp only [xorStream, xorStream_xorStream key (i + 1) bs]
    rw [Nat.xor_cancel_right]

theorem xorStream_inj {key i : Nat} {l1 l2 : List Nat}
    (h : xorStream key i l1 = xorStream key i l2) : l1 = l2 := by
  have := congrArg (xorStream key i) h
  rwa [xorStream_xorStream, xorStream_xorStream] at this

theorem isBytes_xorStream {l : List Nat} (key : Nat) :
    ∀ (i : Nat), IsBytes l → IsBytes (xorStream key i l) := by
  induction l with
  | nil => intro i _; intro x hx; simp [xorStream] at hx
  | cons b bs ih =>
    intro i h
    have hb : b < 256 := h b (List.mem_cons_self _ _)
    have hks : ks key i < 256 := ks_lt key i
    refine isBytes_cons ?_ (ih (i + 1) fun x hx => h x (List.mem_cons_of_mem _ hx))
    exact Nat.xor_lt_two_pow (n := 8) hb hks

theorem length_tagBlock (key : Nat) (nonce m : List Nat) :
    (tagBlock key nonce m).length = 16 := by
  simp [tagBlock]

theorem length_secretboxSeal (m nonce : List Nat) (key : Nat) :
    (secretboxSeal m nonce key).length = m.length + 16 := by
  simp [secretboxSeal, length_tagBlock, length_xorStream]
  omega

theorem length_sealBytes (password salt nonce data : List Nat) :
    (sealBytes password salt nonce data).length =
      salt.length + nonce.length + data.length + 16 := by
  simp [sealBytes, length_secretboxSeal]
  omega

theorem secretboxOpen_secretboxSeal (m nonce : List Nat) (key : Nat) :
    secretboxOpen (secretboxSeal m nonce key) nonce key = some m := by
  unfold secretboxOpen secretboxSeal
  rw [List.take_left' (length_tagBlock key nonce m),
    List.drop_left' (length_tagBlock key nonce m)]
  simp [xorStream_xorStream]

theorem xor_two_pow_ne (x j : Nat) : x ^^^ 2 ^ j ≠ x := by
  intro h
  have h2 : x ^^^ 2 ^ j = x ^^^ 0 := by rwa [Nat.xor_zero]
  have := Nat.xor_right_inj.1 h2
  exact absurd this (Nat.pos_iff_ne_zero.1 (Nat.pos_pow_of_pos j (by omega)))

theorem take_32_sealBytes {password salt nonce data : List Nat}
    (hs : salt.length = 32) :
    (sealBytes password salt nonce data).take 32 = salt := by
  unfold sealBytes
  rw [List.append_assoc, List.take_left' hs]

theorem drop_32_sealBytes {password salt nonce data : List Nat}
    (hs : salt.length = 32) :
    (sealBytes password salt nonce data).drop 32 =
      nonce ++ secretboxSeal data nonce (Nat.pair (encB password) (encB salt)) := by
  unfold sealBytes
  rw [List.append_assoc, List.drop_left' hs]

theorem drop_56_sealBytes {password salt nonce data : List Nat}
    (hs : salt.length = 32) (hn : nonce.length = 24) :
    (sealBytes password salt nonce data).drop 56 =
      secretboxSeal data nonce (Nat.pair (encB password) (encB salt)) := by
  have h : (56 : Nat) = 32 + 24 := by omega
  rw [h, ← List.drop_drop, drop_32_sealBytes hs, List.drop_left' hn]

theorem restore_of_length_gt (password buf : List Nat) (h : buf.length > 56) :
    restore password buf =
      match secretboxOpen (buf.drop 56) ((buf.drop 32).take 24)
          (Nat.pair (encB password) (encB (buf.take 32))) with
      | none => .decryptionFailed
      | some m => .ok m := by
  have hsalt : (buf.take 32).length = 32 := by
    rw [List.length_take]; omega
  have hnonce : ((buf.drop 32).take 24).length = 24 := by
    rw [List.length_take, List.length_drop]; omega
  unfold restore saltFromSlice nonceFromSlice deriveKeyInteractive
  rw [if_pos h, if_pos hsalt, if_pos hnonce]

theorem restore_sealBytes {password salt nonce data : List Nat}
    (hs : salt.length = 32) (hn : nonce.length = 24) :
    restore password (sealBytes password salt nonce data) = .ok data := by
  have hlen : (sealBytes password salt nonce data).length > 56 := by
    rw [length_sealBytes]; omega
  rw [restore_of_length_gt _ _ hlen, take_32_sealBytes hs,
    drop_32_sealBytes hs, drop_56_sealBytes hs hn,
    List.take_append_of_le_length (by omega), List.take_of_length_le (by omega),
    secretboxOpen_secretboxSeal]

theorem secretboxOpen_wrong_key (m nonce : List Nat) {key key' : Nat}
    (hne : key' ≠ key) :
    secretboxOpen (secretboxSeal m nonce key) nonce key' = none := by
  unfold secretboxOpen secretboxSeal
  rw [List.take_left' (length_tagBlock key nonce m),
    List.drop_left' (length_tagBlock key nonce m)]
  simp only [tagBlock]
  rw [if_neg]
  intro hcontra
  injection hcontra with h1 h2
  exact hne ((Nat.pair_eq_pair.1 (Nat.pair_eq_pair.1 h1).1).1).symm

theorem secretboxOpen_eq (c nonce : List Nat) (key : Nat) :
    secretboxOpen c nonce key =
      if c.take 16 = tagBlock key nonce (xorStream key 0 (c.drop 16))
      then some (xorStream key 0 (c.drop 16)) else none := rfl

theorem set_ne_self {l : List Nat} {i v : Nat} (hi : i < l.length) (hne : v ≠ l[i]) :
    l.set i v ≠ l := by
  intro he
  have h1 : (l.set i v)[i]? = l[i]? := by rw [he]
  rw [List.getElem?_set_self (by simpa using hi), List.getElem?_eq_getElem hi] at h1
  exact hne (Option.some.inj h1)

theorem two_pow_lt_256 {j : Nat} (hj : j < 8) : 2 ^ j < 256 := by
  calc 2 ^ j ≤ 2 ^ 7 := Nat.pow_le_pow_right (by omega) (by omega)
  _ < 256 := by omega

/-- Single-position tampering anywhere in the ciphertext makes the ideal
authenticated decryption fail. -/
theorem secretboxOpen_tampered {d n : List Nat} {key k j : Nat}
    (hd : IsBytes d) (hk : k < (secretboxSeal d n key).length) (hj : j < 8) :
    secretboxOpen ((secretboxSeal d n key).set k
      ((secretboxSeal d n key)[k] ^^^ 2 ^ j)) n key = none := by
  have htag : (tagBlock key n d).length = 16 := length_tagBlock key n d
  have hbody : (xorStream key 0 d).length = d.length := length_xorStream key 0 d
  have hlen : (secretboxSeal d n key).length = d.length + 16 :=
    length_secretboxSeal d n key
  rcases Nat.lt_or_ge k 16 with hk16 | hk16
  · -- the flip lands in the 16-byte tag region
    have hkt : k < (tagBlock key n d).length := by omega
    have hget : (secretboxSeal d n key)[k] = (tagBlock key n d)[k] :=
      List.getElem_append_left hkt
    have hset : (secretboxSeal d n key).set k ((secretboxSeal d n key)[k] ^^^ 2 ^ j)
        = (tagBlock key n d).set k ((tagBlock key n d)[k] ^^^ 2 ^ j)
          ++ xorStream key 0 d := by
      rw [hget]
      exact List.set_append_left _ _ hkt
    rw [hset, secretboxOpen_eq,
      List.take_left' (by rw [List.length_set, htag]),
      List.drop_left' (by rw [List.length_set, htag]),
      xorStream_xorStream]
    rw [if_neg (set_ne_self hkt (xor_two_pow_ne _ _))]
  · -- the flip lands in the encrypted body
    have hkb : k - 16 < (xorStream key 0 d).length := by omega
    have hget : (secretboxSeal d n key)[k] = (xorStream key 0 d)[k - 16] := by
      unfold secretboxSeal
      rw [List.getElem_append_right (by omega)]
      congr 1
    have hset : (secretboxSeal d n key).set k ((secretboxSeal d n key)[k] ^^^ 2 ^ j)
        = tagBlock key n d
          ++ (xorStream key 0 d).set (k - 16) ((xorStream key 0 d)[k - 16] ^^^ 2 ^ j) := by
      rw [hget]
      unfold secretboxSeal
      rw [List.set_append_right _ _ (by omega), htag]
    have hvlt : (xorStream key 0 d)[k - 16] ^^^ 2 ^ j < 256 := by
      refine Nat.xor_lt_two_pow (n := 8) ?_ (two_pow_lt_256 hj)
      exact isBytes_xorStream key 0 hd _ (List.getElem_mem hkb)
    have hbytes : IsBytes ((xorStream key 0 d).set (k - 16)
        ((xorStream key 0 d)[k - 16] ^^^ 2 ^ j)) := by
      intro x hx
      rcases List.mem_or_eq_of_mem_set hx with h | h
      · exact isBytes_xorStream key 0 hd x h
      · exact h ▸ hvlt
    rw [hset, secretboxOpen_eq, List.take_left' htag, List.drop_left' htag]
    rw [if_neg]
    intro hcontra
    injection hcontra with h1 h2
    have henc := (Nat.pair_eq_pair.1 h1).2
    have hdm : d = xorStream key 0 ((xorStream key 0 d).set (k - 16)
        ((xorStream key 0 d)[k - 16] ^^^ 2 ^ j)) :=
      encB_inj hd (isBytes_xorStream key 0 hbytes) henc
    have hbo := congrArg (xorStream key 0) hdm
    rw [xorStream_xorStream] at hbo
    exact set_ne_self hkb (xor_two_pow_ne _ _) hbo.symm

theorem secretboxOpen_short {c : List Nat} (n : List Nat) (key : Nat)
    (h : c.length < 16) : secretboxOpen c n key = none := by
  rw [secretboxOpen_eq, if_neg]
  intro hcontra
  have hlen := congrArg List.length hcontra
  rw [List.length_take, length_tagBlock] at hlen
  omega

theorem restoreInstr_fst (password buf : List Nat) :
    (restoreInstr password buf).1 = restore password buf := by
  unfold restore restoreInstr
  by_cases h : buf.length > 56
  · rw [if_pos h, if_pos h]
    cases saltFromSlice (buf.take 32) with
    | none => rfl
    | some s =>
      dsimp only
      cases nonceFromSlice ((buf.drop 32).take 24) with
      | none => rfl
      | some n =>
        dsimp only
        cases deriveKeyInteractive password s with
        | none => rfl
        | some key =>
          dsimp only
          cases secretboxOpen (buf.drop 56) n key with
          | none => rfl
          | some m => rfl
  · rw [if_neg h, if_neg h]

/-- Concrete salt used by the witnesses, of length SALTBYTES. -/
def salt0 : List Nat := List.replicate 32 1

/-- Concrete second salt used by the witnesses, of length SALTBYTES. -/
def salt1 : List Nat := List.replicate 32 9

/-- Concrete nonce used by the witnesses, of length NONCEBYTES. -/
def nonce0 : List Nat := List.replicate 24 2

/-! The claims. -/

/-- C1.  Round-trip: for every password P and every byte sequence D,
including the empty sequence, opening the sealed archive produced by seal
with the same password returns exactly D, bit for bit. -/
theorem c1_round_trip (password salt nonce data a : List Nat)
    (hs : salt.length = SALTBYTES) (hn : nonce.length = NONCEBYTES)
    (ha : sealArchive password salt nonce data = some a) :
    restore password a = .ok data := by
  have hb : sealArchive password salt nonce data = some (sealBytes password salt nonce data) :=
    rfl
  rw [hb] at ha
  rw [← Option.some.inj ha]
  exact restore_sealBytes hs hn

theorem c1_round_trip_witness :
    restore [0] (sealBytes [0] salt0 nonce0 [10, 20]) = .ok [10, 20] :=
  c1_round_trip [0] salt0 nonce0 [10, 20] _ (by decide) (by decide) rfl

/-- C2.  Wrong password: for every pair of distinct passwords P1 and P2
(byte strings) and every byte sequence D, opening seal(P1, D) under P2
fails with the single undifferentiated DecryptionFailed error and returns
no plaintext. -/
theorem c2_wrong_password (p1 p2 salt nonce data : List Nat)
    (hp1 : IsBytes p1) (hp2 : IsBytes p2) (hne : p1 ≠ p2)
    (hs : salt.length = SALTBYTES) (hn : nonce.length = NONCEBYTES) :
    restore p2 (sealBytes p1 salt nonce data) = .decryptionFailed := by
  have hs' : salt.length = 32 := hs
  have hn' : nonce.length = 24 := hn
  have hlen : (sealBytes p1 salt nonce data).length > 56 := by
    rw [length_sealBytes, hs', hn']; omega
  rw [restore_of_length_gt _ _ hlen, take_32_sealBytes hs', drop_32_sealBytes hs',
    drop_56_sealBytes hs' hn', List.take_left' hn']
  have hkey : Nat.pair (encB p2) (encB salt) ≠ Nat.pair (encB p1) (encB salt) := by
    intro hcontra
    exact hne (encB_inj hp1 hp2 (Nat.pair_eq_pair.1 hcontra).1.symm)
  rw [secretboxOpen_wrong_key _ _ hkey]

theorem c2_wrong_password_witness :
    restore [1] (sealBytes [0] salt0 nonce0 [5]) = .decryptionFailed :=
  c2_wrong_password [0] [1] salt0 nonce0 [5]
    (by decide) (by decide) (by decide) (by decide) (by decide)

/-- C3.  Format guard: for every byte sequence of length at most 56 given
to open, open fails with MalformedArchive and key derivation is never
attempted. -/
theorem c3_format_guard (password buf : List Nat) (h : buf.length ≤ 56) :
    restore password buf = .malformedArchive
      ∧ (restoreInstr password buf).2 = false := by
  constructor
  · unfold restore
    rw [if_neg (by omega)]
  · unfold restoreInstr
    rw [if_neg (by omega)]

theorem c3_format_guard_witness :
    restore [] (List.replicate 56 0) = .malformedArchive
      ∧ (restoreInstr [] (List.replicate 56 0)).2 = false :=
  c3_format_guard [] (List.replicate 56 0) (by decide)

/-- C4.  Size relation: the sealed archive returned by seal has length
exactly 56 + len(D) + 16 bytes. -/
theorem c4_size_relation (password salt nonce data a : List Nat)
    (hs : salt.length = SALTBYTES) (hn : nonce.length = NONCEBYTES)
    (ha : sealArchive password salt nonce data = some a) :
    a.length = 56 + data.length + 16 := by
  have hs' : salt.length = 32 := hs
  have hn' : nonce.length = 24 := hn
  have hb : sealArchive password salt nonce data = some (sealBytes password salt nonce data) :=
    rfl
  rw [hb] at ha
  rw [← Option.some.inj ha, length_sealBytes, hs', hn']

theorem c4_size_relation_witness :
    (sealBytes [3] salt0 nonce0 [7, 8, 9]).length = 56 + 3 + 16 :=
  c4_size_relation [3] salt0 nonce0 [7, 8, 9] _ (by decide) (by decide) rfl

/-- C5.  Archive layout: a sealed archive is the concatenation, in fixed
order, of the salt (bytes 0 to 31), the nonce (bytes 32 to 55) and the
secretbox ciphertext (bytes 56 to the end); open destructures its input at
exactly those offsets and derives the key from (password, salt) with the
same key-derivation function seal used. -/
theorem c5_layout (password salt nonce data : List Nat)
    (hs : salt.length = SALTBYTES) (hn : nonce.length = NONCEBYTES) :
    sealBytes password salt nonce data
        = salt ++ nonce ++ secretboxSeal data nonce (Nat.pair (encB password) (encB salt))
      ∧ (sealBytes password salt nonce data).take 32 = salt
      ∧ ((sealBytes password salt nonce data).drop 32).take 24 = nonce
      ∧ (sealBytes password salt nonce data).drop 56
          = secretboxSeal data nonce (Nat.pair (encB password) (encB salt))
      ∧ deriveKeyInteractive password ((sealBytes password salt nonce data).take 32)
          = deriveKeyInteractive password salt := by
  have hs' : salt.length = 32 := hs
  have hn' : nonce.length = 24 := hn
  refine ⟨rfl, take_32_sealBytes hs', ?_, drop_56_sealBytes hs' hn', ?_⟩
  · rw [drop_32_sealBytes hs', List.take_left' hn']
  · rw [take_32_sealBytes hs']

theorem c5_layout_witness :
    (sealBytes [4] salt0 nonce0 [6]).take 32 = salt0
      ∧ ((sealBytes [4] salt0 nonce0 [6]).drop 32).take 24 = nonce0
      ∧ deriveKeyInteractive [4] ((sealBytes [4] salt0 nonce0 [6]).take 32)
          = deriveKeyInteractive [4] salt0 := by
  have h := c5_layout [4] salt0 nonce0 [6] (by decide) (by decide)
  exact ⟨h.2.1, h.2.2.1, h.2.2.2.2⟩

theorem restore_append_form (password salt nonce ct : List Nat)
    (hs' : salt.length = 32) (hn' : nonce.length = 24) (hct : ct.length > 0) :
    restore password ((salt ++ nonce) ++ ct)
      = match secretboxOpen ct nonce (Nat.pair (encB password) (encB salt)) with
        | none => .decryptionFailed
        | some m => .ok m := by
  have hlen : ((salt ++ nonce) ++ ct).length > 56 := by
    rw [List.length_append, List.length_append, hs', hn']; omega
  rw [restore_of_length_gt _ _ hlen]
  have h1 : ((salt ++ nonce) ++ ct).take 32 = salt := by
    rw [List.append_assoc, List.take_left' hs']
  have h2 : (((salt ++ nonce) ++ ct).drop 32).take 24 = nonce := by
    rw [List.append_assoc, List.drop_left' hs', List.take_left' hn']
  have h3 : ((salt ++ nonce) ++ ct).drop 56 = ct := by
    rw [List.append_assoc, show (56 : Nat) = 32 + 24 from rfl, ← List.drop_drop,
      List.drop_left' hs', List.drop_left' hn']
  rw [h1, h2, h3]

/-- C6.  Tamper sensitivity: flipping any single bit of any byte in the
ciphertext region (offsets 56 to the end) of a sealed archive makes open
fail with DecryptionFailed; it never succeeds and never returns altered
plaintext. -/
theorem c6_tamper_sensitivity (password salt nonce data : List Nat) (i j : Nat)
    (hd : IsBytes data) (hs : salt.length = SALTBYTES) (hn : nonce.length = NONCEBYTES)
    (hge : 56 ≤ i) (hlt : i < (sealBytes password salt nonce data).length) (hj : j < 8) :
    restore password ((sealBytes password salt nonce data).set i
      ((sealBytes password salt nonce data)[i] ^^^ 2 ^ j)) = .decryptionFailed := by
  have hs' : salt.length = 32 := hs
  have hn' : nonce.length = 24 := hn
  have h56 : (salt ++ nonce).length = 56 := by rw [List.length_append, hs', hn']
  have hlt' := hlt
  rw [length_sealBytes, hs', hn'] at hlt'
  have hki : i - 56
      < (secretboxSeal data nonce (Nat.pair (encB password) (encB salt))).length := by
    rw [length_secretboxSeal]; omega
  have hget : (sealBytes password salt nonce data)[i]
      = (secretboxSeal data nonce (Nat.pair (encB password) (encB salt)))[i - 56] := by
    unfold sealBytes
    rw [List.getElem_append_right (by omega)]
    congr 1
    omega
  have hset : (sealBytes password salt nonce data).set i
        ((sealBytes password salt nonce data)[i] ^^^ 2 ^ j)
      = (salt ++ nonce)
        ++ (secretboxSeal data nonce (Nat.pair (encB password) (encB salt))).set (i - 56)
          ((secretboxSeal data nonce (Nat.pair (encB password) (encB salt)))[i - 56]
            ^^^ 2 ^ j) := by
    rw [hget]
    unfold sealBytes
    rw [List.set_append_right _ _ (by omega)]
    congr 2
    omega
  rw [hset, restore_append_form password salt nonce _ hs' hn'
      (by rw [List.length_set, length_secretboxSeal]; omega),
    secretboxOpen_tampered hd hki hj]

theorem c6_tamper_sensitivity_witness :
    restore [0] ((sealBytes [0] salt0 nonce0 [3]).set 72
      ((sealBytes [0] salt0 nonce0 [3]).get ⟨72, by decide⟩ ^^^ 2 ^ 0))
      = .decryptionFailed :=
  c6_tamper_sensitivity [0] salt0 nonce0 [3] 72 0
    (by decide) (by decide) (by decide) (by decide) (by decide) (by decide)

/-- C7.  No partial output on failure: whenever restore fails, nothing is
written to stdout, and whenever the seal step of backup fails, nothing is
written to the backup file; plaintext or ciphertext bytes are emitted only
after the corresponding operation has fully succeeded. -/
theorem c7_no_partial_output (password buf : List Nat) (sealResult : Option (List Nat)) :
    ((restoreRun password buf).1.isOk = false → (restoreRun password buf).2 = [])
    ∧ (∀ m, (restoreRun password buf).1 = .ok m → (restoreRun password buf).2 = m)
    ∧ ((backupRun sealResult).1 = none → (backupRun sealResult).2 = [])
    ∧ (∀ sealed, (backupRun sealResult).1 = some sealed
        → (backupRun sealResult).2 = sealed) := by
  refine ⟨?_, ?_, ?_, ?_⟩
  · unfold restoreRun
    cases restore password buf <;> simp [RestoreResult.isOk]
  · unfold restoreRun
    cases restore password buf <;> simp
  · cases sealResult <;> simp [backupRun]
  · cases sealResult <;> simp [backupRun]

theorem c7_no_partial_output_witness :
    (restoreRun [] []).2 = []
    ∧ (restoreRun [0] (sealBytes [0] salt0 nonce0 [4])).2 = [4]
    ∧ (backupRun none).2 = []
    ∧ (backupRun (some [1])).2 = [1] :=
  ⟨(c7_no_partial_output [] [] none).1 (by decide),
   (c7_no_partial_output [0] (sealBytes [0] salt0 nonce0 [4]) none).2.1 [4] (by decide),
   (c7_no_partial_output [] [] none).2.2.1 (by decide),
   (c7_no_partial_output [] [] (some [1])).2.2.2 [1] (by decide)⟩

/-- C8.  Non-determinism of output, determinism of content: two seal calls
for the same password and plaintext whose fresh random draws differ (in
the salt or in the nonce) produce different archives, yet both archives
open back to the original plaintext under the same password. -/
theorem c8_fresh_randomness (password s1 n1 s2 n2 data : List Nat)
    (hs1 : s1.length = SALTBYTES) (hn1 : n1.length = NONCEBYTES)
    (hs2 : s2.length = SALTBYTES) (hn2 : n2.length = NONCEBYTES)
    (hfresh : s1 ≠ s2 ∨ n1 ≠ n2) :
    sealBytes password s1 n1 data ≠ sealBytes password s2 n2 data
    ∧ restore password (sealBytes password s1 n1 data) = .ok data
    ∧ restore password (sealBytes password s2 n2 data) = .ok data := by
  have hs1' : s1.length = 32 := hs1
  have hn1' : n1.length = 24 := hn1
  have hs2' : s2.length = 32 := hs2
  have hn2' : n2.length = 24 := hn2
  refine ⟨?_, restore_sealBytes hs1' hn1', restore_sealBytes hs2' hn2'⟩
  intro he
  have h1 := congrArg (List.take 32) he
  rw [take_32_sealBytes hs1', take_32_sealBytes hs2'] at h1
  have h2 := congrArg (fun l => (List.drop 32 l).take 24) he
  dsimp only at h2
  rw [drop_32_sealBytes hs1', drop_32_sealBytes hs2',
    List.take_left' hn1', List.take_left' hn2'] at h2
  rcases hfresh with hne | hne
  · exact hne h1
  · exact hne h2

theorem c8_fresh_randomness_witness :
    sealBytes [0] salt0 nonce0 [2] ≠ sealBytes [0] salt1 nonce0 [2]
    ∧ restore [0] (sealBytes [0] salt0 nonce0 [2]) = .ok [2]
    ∧ restore [0] (sealBytes [0] salt1 nonce0 [2]) = .ok [2] :=
  c8_fresh_randomness [0] salt0 nonce0 salt1 nonce0 [2]
    (by decide) (by decide) (by decide) (by decide) (Or.inl (by decide))

/-- C9.  Panic freedom of destructuring: for every input longer than 56
bytes, Salt::from_slice on bytes 0 to 31 and Nonce::from_slice on bytes 32
to 55 always succeed, so the expect panic branches guarding them in
restore are unreachable under the length precondition. -/
theorem c9_from_slice_total (password buf : List Nat) (h : buf.length > 56) :
    (saltFromSlice (buf.take 32)).isSome = true
    ∧ (nonceFromSlice ((buf.drop 32).take 24)).isSome = true
    ∧ restore password buf ≠ .invalidSaltPanic
    ∧ restore password buf ≠ .invalidNoncePanic := by
  have hsalt : (buf.take 32).length = 32 := by rw [List.length_take]; omega
  have hnonce : ((buf.drop 32).take 24).length = 24 := by
    rw [List.length_take, List.length_drop]; omega
  refine ⟨?_, ?_, ?_, ?_⟩
  · simp [saltFromSlice, hsalt]
  · simp [nonceFromSlice, hnonce]
  · rw [restore_of_length_gt _ _ h]
    cases secretboxOpen (buf.drop 56) ((buf.drop 32).take 24)
      (Nat.pair (encB password) (encB (buf.take 32))) <;> simp
  · rw [restore_of_length_gt _ _ h]
    cases secretboxOpen (buf.drop 56) ((buf.drop 32).take 24)
      (Nat.pair (encB password) (encB (buf.take 32))) <;> simp

theorem c9_from_slice_total_witness :
    (saltFromSlice ((List.replicate 57 0).take 32)).isSome = true
    ∧ (nonceFromSlice (((List.replicate 57 0).drop 32).take 24)).isSome = true
    ∧ restore [] (List.replicate 57 0) ≠ .invalidSaltPanic
    ∧ restore [] (List.replicate 57 0) ≠ .invalidNoncePanic :=
  c9_from_slice_total [] (List.replicate 57 0) (by decide)

/-- C10.  Minimum decryptable length: for every password, an input whose
length is strictly between 56 and 72 passes the format guard but always
fails with DecryptionFailed (the ciphertext region is shorter than the
16-byte tag), and every archive that open accepts has length at least
72. -/
theorem c10_minimum_length (password buf : List Nat) :
    (56 < buf.length ∧ buf.length < 72 → restore password buf = .decryptionFailed)
    ∧ (∀ m, restore password buf = .ok m → 72 ≤ buf.length) := by
  constructor
  · rintro ⟨h1, h2⟩
    rw [restore_of_length_gt _ _ h1,
      secretboxOpen_short _ _ (by rw [List.length_drop]; omega)]
  · intro m hm
    by_contra hcon
    push_neg at hcon
    by_cases h56 : buf.length > 56
    · rw [restore_of_length_gt _ _ h56,
        secretboxOpen_short _ _ (by rw [List.length_drop]; omega)] at hm
      exact RestoreResult.noConfusion hm
    · unfold restore at hm
      rw [if_neg h56] at hm
      exact RestoreResult.noConfusion hm

theorem c10_minimum_length_witness :
    restore [] (List.replicate 60 0) = .decryptionFailed
    ∧ 72 ≤ (sealBytes [0] salt0 nonce0 [4]).length :=
  ⟨(c10_minimum_length [] (List.replicate 60 0)).1 (by decide),
   (c10_minimum_length [0] (sealBytes [0] salt0 nonce0 [4])).2 [4] (by decide)⟩

end BwBackup
